import Mathlib

/-!
Shallow embedding of the query-expansion and matching core of
`scripts/polymarket.py` (functions `expand_query` and the matching loop of
`cmd_search`), together with proofs of the specified properties.

Python strings are modelled as Lean `String` (a structure over `List Char`);
the Python primitives `str.lower`, `str.strip`, `str.split`, `str.replace`,
`str.endswith` and the substring test `in` are modelled by structural
functions on the underlying character lists (ASCII-faithful, which covers
every string the program manipulates).
-/

namespace Polymarket

/-- Python `str.lower` on one character (ASCII case mapping). -/
def lowerChar (c : Char) : Char :=
  if 65 ≤ c.toNat ∧ c.toNat ≤ 90 then Char.ofNat (c.toNat + 32) else c

/-- Python `str.lower` (ASCII). -/
def pyLower (s : String) : String :=
  ⟨s.data.map lowerChar⟩

/-- Strip leading whitespace, list level. -/
def dropWS (l : List Char) : List Char :=
  l.dropWhile Char.isWhitespace

/-- Python `str.strip` at the list level: remove leading and trailing
whitespace. -/
def trimL (l : List Char) : List Char :=
  ((dropWS l).reverse.dropWhile Char.isWhitespace).reverse

/-- Python `str.strip`. -/
def pyStrip (s : String) : String :=
  ⟨trimL s.data⟩

/-- Substring occurrence test at the list level: does `pat` occur as a
contiguous run inside the second list? -/
def isInfixOfL (pat : List Char) : List Char → Bool
  | [] => pat.isEmpty
  | c :: rest => pat.isPrefixOf (c :: rest) || isInfixOfL pat rest

/-- Python substring test `needle in hay`. -/
def substr (needle hay : String) : Bool :=
  isInfixOfL needle.data hay.data

/-- One step list of Python `str.replace`: scan left to right, replacing each
non-overlapping occurrence of `pat`.  `fuel` bounds the recursion; it is
always called with `fuel = s.length`, which suffices because every step
consumes at least one character (the program only ever replaces non-empty
patterns). -/
def replaceFuel (pat rep : List Char) : Nat → List Char → List Char
  | _, [] => []
  | 0, s => s
  | fuel + 1, c :: rest =>
    if pat.isPrefixOf (c :: rest) then
      rep ++ replaceFuel pat rep fuel ((c :: rest).drop pat.length)
    else
      c :: replaceFuel pat rep fuel rest

/-- Python `s.replace(pat, rep)` (for the non-empty patterns the program
uses). -/
def pyReplace (s pat rep : String) : String :=
  ⟨replaceFuel pat.data rep.data s.data.length s.data⟩

/-- Helper for Python `str.split()`: cut the character list at every
whitespace character (keeping empty chunks). -/
def splitWS : List Char → List (List Char)
  | [] => [[]]
  | c :: rest =>
    if c.isWhitespace then [] :: splitWS rest
    else
      match splitWS rest with
      | [] => [[c]]
      | g :: gs => (c :: g) :: gs

/-- Python `str.split()` with no argument: split on whitespace runs and drop
empty chunks. -/
def pyWords (s : String) : List String :=
  ((splitWS s.data).filter (fun g => ¬ g.isEmpty)).map (fun g => ⟨g⟩)

/-- Python `str.endswith`. -/
def pyEndsWith (s suffix : String) : Bool :=
  suffix.data.isSuffixOf s.data

/-- Python `word[:-len(old)] + new` as used in the stemming rule. -/
def stemOf (w old new : String) : String :=
  ⟨w.data.take (w.data.length - old.data.length) ++ new.data⟩

/-- Python string length. -/
def pyLen (s : String) : Nat := s.data.length

/-- Add one string to the expansion set (Python `set.add`): the set is
modelled as a duplicate-free list in insertion order. -/
def addE (l : List String) (s : String) : List String :=
  if s ∈ l then l else l ++ [s]

/-! ### The fixed tables of `expand_query` (source lines 317-401, 442-449) -/

/-- Sports-event synonym table. -/
def sports_events : List (String × List String) :=
  [("championship", ["champion", "winner", "tournament", "title", "finals"]),
   ("champion", ["championship", "winner", "tournament", "title"]),
   ("march madness", ["ncaa", "tournament", "final four", "college basketball"]),
   ("final four", ["ncaa", "tournament", "march madness", "semifinal"]),
   ("ncaa", ["college", "tournament", "march madness"]),
   ("super bowl", ["nfl", "championship", "football"]),
   ("world series", ["mlb", "championship", "baseball"]),
   ("stanley cup", ["nhl", "championship", "hockey"]),
   ("nba finals", ["championship", "basketball", "nba champion"]),
   ("playoffs", ["postseason", "championship"]),
   ("mvp", ["most valuable", "award"])]

/-- Player/team action synonym table. -/
def actions : List (String × List String) :=
  [("trade", ["traded", "next team", "destination", "move"]),
   ("traded", ["trade", "next team", "destination"]),
   ("sign", ["signed", "signing", "contract", "free agent"]),
   ("retire", ["retired", "retirement"]),
   ("win", ["winner", "won", "wins", "winning"]),
   ("winner", ["win", "wins", "champion"]),
   ("beat", ["defeat", "over", "vs"])]

/-- Politics synonym table. -/
def politics : List (String × List String) :=
  [("election", ["president", "presidential", "vote", "elect"]),
   ("president", ["election", "presidential", "potus"]),
   ("senate", ["senator", "congress"]),
   ("congress", ["house", "senate", "congressional"]),
   ("republican", ["gop", "rep"]),
   ("democrat", ["dem", "democratic"]),
   ("primary", ["nomination", "nominee"])]

/-- Economics/business synonym table. -/
def economics : List (String × List String) :=
  [("fed", ["federal reserve", "interest rate", "fomc"]),
   ("rate cut", ["interest rate", "fed", "rate hike"]),
   ("rate hike", ["interest rate", "fed", "rate cut"]),
   ("recession", ["economy", "gdp", "downturn"]),
   ("inflation", ["cpi", "prices"]),
   ("ipo", ["public", "listing"]),
   ("acquisition", ["acquire", "bought", "merger"])]

/-- Crypto synonym table. -/
def crypto : List (String × List String) :=
  [("bitcoin", ["btc", "crypto"]),
   ("btc", ["bitcoin", "crypto"]),
   ("ethereum", ["eth", "crypto"]),
   ("eth", ["ethereum", "crypto"]),
   ("ath", ["all time high", "record"]),
   ("moon", ["surge", "rally", "pump"])]

/-- Tech/AI synonym table. -/
def tech : List (String × List String) :=
  [("ai", ["artificial intelligence", "gpt", "llm", "chatgpt"]),
   ("agi", ["artificial general intelligence", "ai"]),
   ("release", ["launch", "announce", "ship"]),
   ("iphone", ["apple", "ios"])]

/-- `all_synonyms = {**sports_events, **actions, **politics, **economics,
**crypto, **tech}`; the keys are pairwise distinct, so the dict merge is
concatenation in insertion order. -/
def all_synonyms : List (String × List String) :=
  sports_events ++ actions ++ politics ++ economics ++ crypto ++ tech

/-- League/sport association table. -/
def sport_leagues : List (String × List String) :=
  [("nba", ["basketball", "hoops"]),
   ("nfl", ["football"]),
   ("mlb", ["baseball"]),
   ("nhl", ["hockey"]),
   ("mls", ["soccer"]),
   ("ufc", ["mma", "fight"]),
   ("pga", ["golf"]),
   ("atp", ["tennis"]),
   ("wta", ["tennis"]),
   ("f1", ["formula 1", "racing"])]

/-- `suffixes = [('ing',''),('ed',''),('er',''),('s',''),('ment','')]`. -/
def suffixes : List (String × String) :=
  [("ing", ""), ("ed", ""), ("er", ""), ("s", ""), ("ment", "")]

/-- The filler-phrase table (`abbreviations` in the source). -/
def abbrevTable : List (String × String) :=
  [("who will", ""), ("will", ""), ("what are", ""),
   ("the odds", "odds"), ("what's", ""), ("whats", "")]

/-! ### The expansion stages (source lines 405-454) -/

/-- Rule 1: synonym substitution. -/
def synStage (query : String) (acc : List String) : List String :=
  all_synonyms.foldl
    (fun acc kv =>
      if substr kv.1 query then
        kv.2.foldl (fun a v => addE (addE a (pyReplace query kv.1 v)) v) acc
      else acc)
    acc

/-- Rule 2: league/sport associations (both directions). -/
def leagueStage (query : String) (acc : List String) : List String :=
  sport_leagues.foldl
    (fun acc ls =>
      let acc1 :=
        if substr ls.1 query then
          ls.2.foldl (fun a s => addE (addE a (pyReplace query ls.1 s)) s) acc
        else acc
      ls.2.foldl (fun a s => if substr s query then addE a ls.1 else a) acc1)
    acc

/-- Rule 3: word stem variations. -/
def stemStage (words : List String) (acc : List String) : List String :=
  words.foldl
    (fun acc w =>
      if 4 ≤ pyLen w then
        suffixes.foldl
          (fun a sr =>
            if pyEndsWith w sr.1 then
              if 3 ≤ pyLen (stemOf w sr.1 sr.2) then addE a (stemOf w sr.1 sr.2)
              else a
            else a)
          acc
      else acc)
    acc

/-- Rule 4: individual words for multi-word queries. -/
def wordStage (words : List String) (acc : List String) : List String :=
  if 2 ≤ words.length then
    words.foldl (fun a w => if 3 ≤ pyLen w then addE a w else a) acc
  else acc

/-- Rule 5: slug-style version. -/
def slugStage (query : String) (acc : List String) : List String :=
  addE acc (pyReplace query " " "-")

/-- Rule 6: filler-phrase handling. -/
def abbrevStage (query : String) (acc : List String) : List String :=
  abbrevTable.foldl
    (fun acc pr =>
      if substr pr.1 query then
        if pyStrip (pyReplace query pr.1 pr.2) ≠ "" then
          addE acc (pyStrip (pyReplace query pr.1 pr.2))
        else acc
      else acc)
    acc

/-- The body of `expand_query` after the normalisation line
`query = query.lower().strip()`. -/
def expandCore (query : String) : List String :=
  let words := pyWords query
  abbrevStage query
    (slugStage query
      (wordStage words
        (stemStage words
          (leagueStage query
            (synStage query [query])))))

/-- The normalised query: `query.lower().strip()`. -/
def normQuery (q : String) : String := pyStrip (pyLower q)

/-- `expand_query` (source lines 309-456), returning the expansion set as a
duplicate-free list in insertion order. -/
def expand_query (q : String) : List String :=
  expandCore (normQuery q)

/-! ### The candidate matcher (the matching loop of `cmd_search`,
source lines 479-508) -/

/-- A nested sub-record ("market"): `question` and `groupItemTitle`, with a
missing field modelled as `""` (the source reads them with
`m.get('question', '')` / `m.get('groupItemTitle', '')`). -/
structure Market where
  question : String
  groupItemTitle : String
  deriving DecidableEq

/-- A catalog record ("event"): `slug`, `title`, `description` and the nested
markets, with missing string fields modelled as `""`. -/
structure Event where
  slug : String
  title : String
  description : String
  markets : List Market
  deriving DecidableEq

/-- The top-level field test of the matching loop: some variant occurs in the
lower-cased slug, title or description. -/
def matchesTop (V : List String) (e : Event) : Bool :=
  V.any fun q =>
    substr q (pyLower e.slug) || substr q (pyLower e.title) ||
      substr q (pyLower e.description)

/-- The sub-record test of the matching loop: some variant occurs in the
lower-cased question or group-item title of one market. -/
def matchesMarket (V : List String) (m : Market) : Bool :=
  V.any fun q => substr q (pyLower m.question) || substr q (pyLower m.groupItemTitle)

/-- The matching loop of `cmd_search`: per event, first the top-level fields
(short-circuiting with `found`/`break`), then the nested markets; a matched
event is appended exactly once, in input order. -/
def search_matches (V : List String) : List Event → List Event
  | [] => []
  | e :: rest =>
    if matchesTop V e then e :: search_matches V rest
    else if e.markets.any (matchesMarket V) then e :: search_matches V rest
    else search_matches V rest

/-- The per-event inclusion condition the loop implements. -/
def eventMatches (V : List String) (e : Event) : Bool :=
  matchesTop V e || e.markets.any (matchesMarket V)

/-- "`v` is a case-insensitive substring of `s`", the spec's wording for the
match invariant. -/
def ciSubstr (v s : String) : Bool :=
  substr (pyLower v) (pyLower s)

/-- The spec's per-record invariant: some variant is a case-insensitive
substring of the slug, title or description, or of some nested market's
question or label. -/
def specEventMatches (V : List String) (e : Event) : Bool :=
  V.any fun v =>
    ciSubstr v e.slug || ciSubstr v e.title || ciSubstr v e.description ||
      e.markets.any (fun m => ciSubstr v m.question || ciSubstr v m.groupItemTitle)

/-! ### Basic lemmas about the string primitives -/

lemma isInfixOfL_iff {pat l : List Char} : isInfixOfL pat l = true ↔ pat <:+: l := by
  induction l with
  | nil => simp [isInfixOfL, List.isEmpty_iff, List.infix_nil]
  | cons c rest ih =>
    simp [isInfixOfL, Bool.or_eq_true, List.isPrefixOf_iff_prefix, ih,
      List.infix_cons_iff]

lemma substr_iff {a b : String} : substr a b = true ↔ a.data <:+: b.data :=
  isInfixOfL_iff

lemma substr_trans {a b c : String} (h₁ : substr a b = true)
    (h₂ : substr b c = true) : substr a c = true :=
  substr_iff.mpr ((substr_iff.mp h₁).trans (substr_iff.mp h₂))

lemma substr_empty (s : String) : substr "" s = true :=
  substr_iff.mpr List.nil_infix

/-! ### Membership lemmas for the expansion set -/

lemma mem_addE_of_mem {x : String} {l : List String} (s : String) (h : x ∈ l) :
    x ∈ addE l s := by
  unfold addE
  split
  · exact h
  · exact List.mem_append.mpr (Or.inl h)

lemma mem_addE_self (l : List String) (s : String) : s ∈ addE l s := by
  unfold addE
  split
  · assumption
  · exact List.mem_append.mpr (Or.inr (List.mem_cons.mpr (Or.inl rfl)))

/-- Fold monotonicity: if every step preserves membership, so does the fold. -/
lemma mem_foldl_of_mono {β : Type} {f : List String → β → List String}
    (hf : ∀ a b x, x ∈ a → x ∈ f a b) :
    ∀ (l : List β) (acc : List String) (x : String), x ∈ acc → x ∈ l.foldl f acc := by
  intro l
  induction l with
  | nil => intro acc x h; exact h
  | cons b bs ih => intro acc x h; exact ih _ _ (hf _ _ _ h)

/-- If some entry of the fold list unconditionally puts `x` into the set, and
every step is monotone, then `x` is in the final fold. -/
lemma mem_foldl_of_entry {β : Type} {f : List String → β → List String}
    (hf : ∀ a b x, x ∈ a → x ∈ f a b) {b : β} {x : String}
    (hstep : ∀ acc, x ∈ f acc b) :
    ∀ (l : List β) (acc : List String), b ∈ l → x ∈ l.foldl f acc := by
  intro l
  induction l with
  | nil => intro acc h; cases h
  | cons c cs ih =>
    intro acc hb
    rcases List.mem_cons.mp hb with hb | hb
    · subst hb
      exact mem_foldl_of_mono hf cs (f acc b) x (hstep acc)
    · exact ih _ hb

lemma synStage_mono (q : String) {acc : List String} {x : String} (h : x ∈ acc) :
    x ∈ synStage q acc := by
  unfold synStage
  refine mem_foldl_of_mono ?_ _ _ _ h
  intro a kv y hy
  dsimp only
  split
  · exact mem_foldl_of_mono
      (fun a v z hz => mem_addE_of_mem _ (mem_addE_of_mem _ hz)) _ _ _ hy
  · exact hy

lemma leagueStage_mono (q : String) {acc : List String} {x : String} (h : x ∈ acc) :
    x ∈ leagueStage q acc := by
  unfold leagueStage
  refine mem_foldl_of_mono ?_ _ _ _ h
  intro a ls y hy
  dsimp only
  refine mem_foldl_of_mono ?_ _ _ _ ?_
  · intro a s z hz
    dsimp only
    split
    · exact mem_addE_of_mem _ hz
    · exact hz
  · split
    · exact mem_foldl_of_mono
        (fun a s z hz => mem_addE_of_mem _ (mem_addE_of_mem _ hz)) _ _ _ hy
    · exact hy

lemma stemStage_mono (ws : List String) {acc : List String} {x : String}
    (h : x ∈ acc) : x ∈ stemStage ws acc := by
  unfold stemStage
  refine mem_foldl_of_mono ?_ _ _ _ h
  intro a w y hy
  dsimp only
  split
  · refine mem_foldl_of_mono ?_ _ _ _ hy
    intro a sr z hz
    dsimp only
    split
    · split
      · exact mem_addE_of_mem _ hz
      · exact hz
    · exact hz
  · exact hy

lemma wordStage_mono (ws : List String) {acc : List String} {x : String}
    (h : x ∈ acc) : x ∈ wordStage ws acc := by
  unfold wordStage
  split
  · refine mem_foldl_of_mono ?_ _ _ _ h
    intro a w z hz
    dsimp only
    split
    · exact mem_addE_of_mem _ hz
    · exact hz
  · exact h

lemma slugStage_mono (q : String) {acc : List String} {x : String} (h : x ∈ acc) :
    x ∈ slugStage q acc :=
  mem_addE_of_mem _ h

lemma abbrevStage_mono (q : String) {acc : List String} {x : String} (h : x ∈ acc) :
    x ∈ abbrevStage q acc := by
  unfold abbrevStage
  refine mem_foldl_of_mono ?_ _ _ _ h
  intro a pr y hy
  dsimp only
  split
  · split
    · exact mem_addE_of_mem _ hy
    · exact hy
  · exact hy

/-- Everything reached by the synonym/league stages survives to the final
expansion set. -/
lemma mem_expandCore_of_mem_league {q : String} {x : String}
    (h : x ∈ leagueStage q (synStage q [q])) : x ∈ expandCore q := by
  unfold expandCore
  exact abbrevStage_mono _ (slugStage_mono _ (wordStage_mono _ (stemStage_mono _ h)))

/-- The normalised query itself is in the expansion set. -/
lemma self_mem_expandCore (q : String) : q ∈ expandCore q :=
  mem_expandCore_of_mem_league
    (leagueStage_mono _ (synStage_mono _ (List.mem_cons.mpr (Or.inl rfl))))

/-- The slug-style rendering is in the expansion set. -/
lemma slug_mem_expandCore (q : String) : pyReplace q " " "-" ∈ expandCore q := by
  unfold expandCore
  exact abbrevStage_mono _ (mem_addE_self _ _)

/-- Synonym-rule introduction: when key `k` (with value list `vs`) occurs in
the query, every value and every key-replaced query is in the expansion set. -/
lemma syn_mem_expandCore {q k v : String} {vs : List String}
    (hk : (k, vs) ∈ all_synonyms) (hq : substr k q = true) (hv : v ∈ vs) :
    v ∈ expandCore q ∧ pyReplace q k v ∈ expandCore q := by
  have hmono : ∀ (a : List String) (kv : String × List String) (x : String),
      x ∈ a →
      x ∈ (if substr kv.1 q = true then
            kv.2.foldl (fun a v => addE (addE a (pyReplace q kv.1 v)) v) a
          else a) := by
    intro a kv x hx
    split
    · exact mem_foldl_of_mono
        (fun a v z hz => mem_addE_of_mem _ (mem_addE_of_mem _ hz)) _ _ _ hx
    · exact hx
  have hv1 : v ∈ synStage q [q] := by
    unfold synStage
    refine mem_foldl_of_entry hmono ?_ _ _ hk
    intro acc
    dsimp only
    rw [if_pos hq]
    refine mem_foldl_of_entry ?_ ?_ vs acc hv
    · exact fun a v z hz => mem_addE_of_mem _ (mem_addE_of_mem _ hz)
    · exact fun a => mem_addE_self _ _
  have hv2 : pyReplace q k v ∈ synStage q [q] := by
    unfold synStage
    refine mem_foldl_of_entry hmono ?_ _ _ hk
    intro acc
    dsimp only
    rw [if_pos hq]
    refine mem_foldl_of_entry ?_ ?_ vs acc hv
    · exact fun a v z hz => mem_addE_of_mem _ (mem_addE_of_mem _ hz)
    · exact fun a => mem_addE_of_mem _ (mem_addE_self _ _)
  exact ⟨mem_expandCore_of_mem_league (leagueStage_mono _ hv1),
    mem_expandCore_of_mem_league (leagueStage_mono _ hv2)⟩

/-- Stemming-rule introduction: a suffix-stripped stem of a long-enough word
of the query is in the expansion set, provided the stem is long enough. -/
lemma stem_mem_expandCore {q w old new : String}
    (hw : w ∈ pyWords q) (hlen : 4 ≤ pyLen w) (hsuf : (old, new) ∈ suffixes)
    (hend : pyEndsWith w old = true) (hstem : 3 ≤ pyLen (stemOf w old new)) :
    stemOf w old new ∈ expandCore q := by
  have hinner : ∀ (a : List String) (sr : String × String) (x : String),
      x ∈ a →
      x ∈ (if pyEndsWith w sr.1 = true then
            if 3 ≤ pyLen (stemOf w sr.1 sr.2) then addE a (stemOf w sr.1 sr.2) else a
          else a) := by
    intro a sr x hx
    split
    · split
      · exact mem_addE_of_mem _ hx
      · exact hx
    · exact hx
  have hmono : ∀ (a : List String) (w2 : String) (x : String),
      x ∈ a →
      x ∈ (if 4 ≤ pyLen w2 then
            suffixes.foldl (fun a sr =>
              if pyEndsWith w2 sr.1 = true then
                if 3 ≤ pyLen (stemOf w2 sr.1 sr.2) then addE a (stemOf w2 sr.1 sr.2)
                else a
              else a) a
          else a) := by
    intro a w2 x hx
    split
    · refine mem_foldl_of_mono ?_ _ _ _ hx
      intro a sr z hz
      dsimp only
      split
      · split
        · exact mem_addE_of_mem _ hz
        · exact hz
      · exact hz
    · exact hx
  have h1 : stemOf w old new ∈ stemStage (pyWords q) (leagueStage q (synStage q [q])) := by
    unfold stemStage
    refine mem_foldl_of_entry hmono ?_ _ _ hw
    intro acc
    dsimp only
    rw [if_pos hlen]
    refine mem_foldl_of_entry (fun a sr z hz => hinner a sr z hz) ?_ _ _ hsuf
    intro a
    dsimp only
    rw [if_pos hend, if_pos hstem]
    exact mem_addE_self _ _
  unfold expandCore
  exact abbrevStage_mono _ (slugStage_mono _ (wordStage_mono _ h1))

/-! ### Matcher lemmas -/

/-- The matching loop is exactly an order-preserving filter by the per-event
condition. -/
lemma search_matches_eq_filter (V : List String) (rs : List Event) :
    search_matches V rs = rs.filter (eventMatches V) := by
  induction rs with
  | nil => rfl
  | cons e rest ih =>
    cases htop : matchesTop V e <;>
      cases hm : e.markets.any (matchesMarket V) <;>
        simp [search_matches, List.filter_cons, eventMatches, htop, hm, ih]

/-- If the empty string is one of the variants, every event matches at the
top level. -/
lemma matchesTop_of_empty_mem {V : List String} (h : "" ∈ V) (e : Event) :
    matchesTop V e = true := by
  refine List.any_eq_true.mpr ⟨"", h, ?_⟩
  simp [substr_empty]

lemma search_matches_of_empty_mem {V : List String} (h : "" ∈ V)
    (rs : List Event) : search_matches V rs = rs := by
  induction rs with
  | nil => rfl
  | cons e rest ih => simp [search_matches, matchesTop_of_empty_mem h, ih]

/-- With lower-case variants the code's per-event condition coincides with
the spec's case-insensitive invariant. -/
lemma eventMatches_eq_spec {V : List String} (hV : ∀ v ∈ V, pyLower v = v)
    (e : Event) : eventMatches V e = specEventMatches V e := by
  rw [Bool.eq_iff_iff]
  simp only [eventMatches, specEventMatches, matchesTop, matchesMarket, ciSubstr,
    Bool.or_eq_true, List.any_eq_true]
  constructor
  · rintro (⟨v, hv, h⟩ | ⟨m, hm, v, hv, h⟩)
    · refine ⟨v, hv, ?_⟩
      rw [hV v hv]
      tauto
    · refine ⟨v, hv, ?_⟩
      rw [hV v hv]
      exact Or.inr ⟨m, hm, h⟩
  · rintro ⟨v, hv, h⟩
    rw [hV v hv] at h
    rcases h with h | ⟨m, hm, h⟩
    · exact Or.inl ⟨v, hv, h⟩
    · exact Or.inr ⟨m, hm, v, hv, h⟩

/-! ### Characterisation of single-character replacement (for the slug
rendering) -/

lemma replaceFuel_single (c d : Char) :
    ∀ (s : List Char) (fuel : Nat), s.length ≤ fuel →
      replaceFuel [c] [d] fuel s = s.map (fun a => if a = c then d else a) := by
  intro s
  induction s with
  | nil => intro fuel h; cases fuel <;> rfl
  | cons a rest ih =>
    intro fuel h
    cases fuel with
    | zero => simp at h
    | succ fuel =>
      have hfuel : rest.length ≤ fuel := by
        simpa [Nat.succ_le_succ_iff] using h
      by_cases hac : a = c
      · subst hac
        simp [replaceFuel, List.isPrefixOf, ih fuel hfuel]
      · have : (c == a) = false := by
          simp [Ne.symm hac]
        simp [replaceFuel, List.isPrefixOf, this, hac, ih fuel hfuel]

/-- `s.replace(' ', '-')` maps every space to a hyphen and leaves all other
characters unchanged. -/
lemma pyReplace_space (s : String) :
    pyReplace s " " "-" = ⟨s.data.map (fun a => if a = ' ' then '-' else a)⟩ :=
  congrArg String.mk (replaceFuel_single ' ' '-' s.data s.data.length le_rfl)

/-! ### Idempotence of the normalisation `lower().strip()` -/

lemma toNat_ofNat_shift {n : Nat} (h1 : 65 ≤ n) (h2 : n ≤ 90) :
    (Char.ofNat (n + 32)).toNat = n + 32 := by
  interval_cases n <;> rfl

lemma ws_ofNat_shift {n : Nat} (h1 : 65 ≤ n) (h2 : n ≤ 90) :
    (Char.ofNat (n + 32)).isWhitespace = false := by
  interval_cases n <;> rfl

lemma ws_false_of_range {c : Char} (h : 65 ≤ c.toNat ∧ c.toNat ≤ 90) :
    c.isWhitespace = false := by
  have hs : c ≠ ' ' := by intro hc; subst hc; exact absurd h (by decide)
  have ht2 : c ≠ '\t' := by intro hc; subst hc; exact absurd h (by decide)
  have hr : c ≠ '\x0d' := by intro hc; subst hc; exact absurd h (by decide)
  have hn : c ≠ '\n' := by intro hc; subst hc; exact absurd h (by decide)
  simp [Char.isWhitespace, hs, ht2, hr, hn]

lemma lowerChar_idem (c : Char) : lowerChar (lowerChar c) = lowerChar c := by
  unfold lowerChar
  by_cases h : 65 ≤ c.toNat ∧ c.toNat ≤ 90
  · rw [if_pos h, if_neg]
    rw [toNat_ofNat_shift h.1 h.2]
    omega
  · rw [if_neg h, if_neg h]

lemma ws_lowerChar (c : Char) : (lowerChar c).isWhitespace = c.isWhitespace := by
  unfold lowerChar
  by_cases h : 65 ≤ c.toNat ∧ c.toNat ≤ 90
  · rw [if_pos h, ws_ofNat_shift h.1 h.2, ws_false_of_range h]
  · rw [if_neg h]

lemma lowerL_idem (l : List Char) :
    (l.map lowerChar).map lowerChar = l.map lowerChar := by
  rw [List.map_map]
  have hfun : (lowerChar ∘ lowerChar) = lowerChar := funext lowerChar_idem
  rw [hfun]

lemma ws_comp_lower : (Char.isWhitespace ∘ lowerChar) = Char.isWhitespace :=
  funext ws_lowerChar

lemma dropWS_map_lower (l : List Char) :
    dropWS (l.map lowerChar) = (dropWS l).map lowerChar := by
  unfold dropWS
  rw [List.dropWhile_map, ws_comp_lower]

lemma trimL_map_lower (l : List Char) :
    trimL (l.map lowerChar) = (trimL l).map lowerChar := by
  unfold trimL
  rw [dropWS_map_lower, ← List.map_reverse, List.dropWhile_map, ws_comp_lower,
    ← List.map_reverse]

lemma dropWhile_ws_idem (l : List Char) :
    (l.dropWhile Char.isWhitespace).dropWhile Char.isWhitespace
      = l.dropWhile Char.isWhitespace := by
  induction l with
  | nil => rfl
  | cons c rest ih =>
    cases h : c.isWhitespace <;> simp [List.dropWhile_cons, h, ih]

/-- A prefix of a list that survives `dropWhile` unchanged also survives it
unchanged. -/
lemma dropWhile_eq_self_of_pre {l u : List Char}
    (hl : l.dropWhile Char.isWhitespace = l) (hu : u <+: l) :
    u.dropWhile Char.isWhitespace = u := by
  cases u with
  | nil => rfl
  | cons a as =>
    cases l with
    | nil =>
      have h := List.prefix_nil.mp hu
      simp at h
    | cons b bs =>
      have hab : a = b ∧ as <+: bs := List.cons_prefix_cons.mp hu
      have hwb : b.isWhitespace = false := by
        cases hwb : b.isWhitespace
        · rfl
        · exfalso
          rw [List.dropWhile_cons, if_pos hwb] at hl
          have hle := (List.dropWhile_suffix (l := bs) Char.isWhitespace).length_le
          rw [hl] at hle
          simp at hle
      rw [List.dropWhile_cons, hab.1, hwb]
      simp

lemma trimL_idem (l : List Char) : trimL (trimL l) = trimL l := by
  have hdw_t : (dropWS l).dropWhile Char.isWhitespace = dropWS l := dropWhile_ws_idem l
  have hpre : ((dropWS l).reverse.dropWhile Char.isWhitespace).reverse <+: dropWS l := by
    have hsuf : (dropWS l).reverse.dropWhile Char.isWhitespace <:+ (dropWS l).reverse :=
      List.dropWhile_suffix _
    have h2 := List.reverse_prefix.mpr hsuf
    rwa [List.reverse_reverse] at h2
  have h1 : dropWS (trimL l) = trimL l :=
    dropWhile_eq_self_of_pre hdw_t hpre
  show ((dropWS (trimL l)).reverse.dropWhile Char.isWhitespace).reverse = trimL l
  rw [h1]
  have h2 : (trimL l).reverse = (dropWS l).reverse.dropWhile Char.isWhitespace := by
    unfold trimL
    rw [List.reverse_reverse]
  rw [h2, dropWhile_ws_idem]
  rfl

lemma pyLower_idem (s : String) : pyLower (pyLower s) = pyLower s :=
  congrArg String.mk (lowerL_idem s.data)

lemma pyStrip_pyLower_comm (s : String) : pyStrip (pyLower s) = pyLower (pyStrip s) :=
  congrArg String.mk (trimL_map_lower s.data)

lemma pyStrip_idem (s : String) : pyStrip (pyStrip s) = pyStrip s :=
  congrArg String.mk (trimL_idem s.data)

/-- `query.lower().strip()` is idempotent. -/
lemma normQuery_idem (q : String) : normQuery (normQuery q) = normQuery q := by
  show pyStrip (pyLower (pyStrip (pyLower q))) = pyStrip (pyLower q)
  rw [← pyStrip_pyLower_comm (pyLower q), pyLower_idem q, pyStrip_idem]

/-! ### Concrete sample records (used by the witnesses) -/

/-- A market whose question mentions the NFL championship. -/
def chiefsMarket : Market :=
  ⟨"Will the Chiefs win the NFL championship?", ""⟩

/-- An event matched through its slug/title. -/
def sbEvent : Event :=
  ⟨"super-bowl-winner", "Super Bowl Winner", "", []⟩

/-- An event matched only through its nested market. -/
def unrelatedEvent : Event :=
  ⟨"x", "Unrelated", "", [chiefsMarket]⟩

/-- An event that matches nothing interesting. -/
def plainEvent : Event :=
  ⟨"y", "Nothing here", "", []⟩

/-- The sample bulk list. -/
def sampleEvents : List Event := [sbEvent, unrelatedEvent, plainEvent]

/-! ### The claims -/

/-- C1: for every variant set V (lower-case variants, as the data model
prescribes and the expander produces) and every ordered record list rs, the
matcher returns exactly the subsequence of rs — relative order preserved,
each record at most once — consisting of the records for which some variant
is a case-insensitive substring of the slug, title or description, or of the
question or group-item title of some nested market; all other records are
excluded. -/
theorem c1_matcher_exact_filter (V : List String) (rs : List Event)
    (hV : ∀ v ∈ V, pyLower v = v) :
    search_matches V rs = rs.filter (specEventMatches V) := by
  rw [search_matches_eq_filter]
  exact List.filter_congr fun e _ => eventMatches_eq_spec hV e

/-- Witness for C1: at `V = ["nfl"]` the matcher keeps exactly the event whose
nested market mentions the NFL, as the filter characterisation predicts. -/
theorem c1_matcher_exact_filter_witness :
    search_matches ["nfl"] sampleEvents = [unrelatedEvent] :=
  (c1_matcher_exact_filter ["nfl"] sampleEvents (by decide)).trans (by decide)

/-- C2: for every input string q, expand(q) is non-empty, contains the
lower-cased whitespace-trimmed form of q, and contains that normalised form
with every space character replaced by a hyphen. -/
theorem c2_expand_base_variants (q : String) :
    expand_query q ≠ [] ∧ normQuery q ∈ expand_query q ∧
      (⟨(normQuery q).data.map fun a => if a = ' ' then '-' else a⟩ : String)
        ∈ expand_query q := by
  refine ⟨?_, self_mem_expandCore (normQuery q), ?_⟩
  · exact List.ne_nil_of_mem (self_mem_expandCore (normQuery q))
  · rw [← pyReplace_space]
    exact slug_mem_expandCore (normQuery q)

/-- C3: whenever a synonym-mapping key k (with values vs) occurs in the
normalised query, every value is in expand(q) verbatim, and so is the query
with k replaced by that value; in particular expand("super bowl odds") has a
variant containing "nfl" and a variant containing "championship". -/
theorem c3_synonym_rule :
    (∀ q k vs v, (k, vs) ∈ all_synonyms → substr k (normQuery q) = true →
      v ∈ vs →
      v ∈ expand_query q ∧ pyReplace (normQuery q) k v ∈ expand_query q) ∧
    ((expand_query "super bowl odds").any fun s => substr "nfl" s) = true ∧
    ((expand_query "super bowl odds").any fun s => substr "championship" s) = true :=
  ⟨fun _ _ _ _ hk hq hv => syn_mem_expandCore hk hq hv, by decide, by decide⟩

/-- Witness for C3: the key "super bowl" of the synonym table fires on
"super bowl odds", putting "nfl" and the replaced query "nfl odds" in the
expansion set. -/
theorem c3_synonym_rule_witness :
    ("nfl" : String) ∈ expand_query "super bowl odds" ∧
      pyReplace (normQuery "super bowl odds") "super bowl" "nfl"
        ∈ expand_query "super bowl odds" :=
  c3_synonym_rule.1 "super bowl odds" "super bowl"
    ["nfl", "championship", "football"] "nfl" (by decide) (by decide) (by decide)

/-- C4: rules test their keys against the normalised query only, never against
previously added variants: a key that is a substring of another key does not
suppress it — any query containing "championship" fires both the
"championship" and the "champion" mappings (each contributing its values and
replacements) — and expansion is not transitive: expand("super bowl") adds the
variant "championship" but not "finals", a value reachable only through the
"championship" key. -/
theorem c4_rules_independent :
    (∀ q, substr "championship" (normQuery q) = true →
      (∀ v ∈ ["champion", "winner", "tournament", "title", "finals"],
        v ∈ expand_query q ∧
          pyReplace (normQuery q) "championship" v ∈ expand_query q) ∧
      (∀ v ∈ ["championship", "winner", "tournament", "title"],
        v ∈ expand_query q ∧
          pyReplace (normQuery q) "champion" v ∈ expand_query q)) ∧
    ("championship" : String) ∈ expand_query "super bowl" ∧
    ("finals" : String) ∉ expand_query "super bowl" := by
  refine ⟨fun q hq => ⟨?_, ?_⟩, by decide, by decide⟩
  · intro v hv
    exact syn_mem_expandCore (k := "championship") (by decide) hq hv
  · intro v hv
    have hsub : substr "champion" (normQuery q) = true :=
      substr_trans (a := "champion") (b := "championship") (by decide) hq
    exact syn_mem_expandCore (k := "champion") (by decide) hsub hv

/-- Witness for C4: on the query "championship" both mappings fire: "finals"
(a value only of the longer key) and the "champion"-replaced query are both
produced. -/
theorem c4_rules_independent_witness :
    ("finals" : String) ∈ expand_query "championship" ∧
      pyReplace (normQuery "championship") "champion" "title"
        ∈ expand_query "championship" :=
  ⟨((c4_rules_independent.1 "championship" (by decide)).1 "finals" (by decide)).1,
   ((c4_rules_independent.1 "championship" (by decide)).2 "title" (by decide)).2⟩

/-- C5: for every space-delimited word of the normalised query of length at
least 4 and every suffix of the fixed list that the word ends with, the
suffix-stripped stem is added provided it has length at least 3; in
particular expand("trading") contains "trad". -/
theorem c5_stemming_rule :
    (∀ q w old new, w ∈ pyWords (normQuery q) → 4 ≤ pyLen w →
      (old, new) ∈ suffixes → pyEndsWith w old = true →
      3 ≤ pyLen (stemOf w old new) → stemOf w old new ∈ expand_query q) ∧
    ("trad" : String) ∈ expand_query "trading" :=
  ⟨fun _ _ _ _ hw hlen hsuf hend hstem =>
    stem_mem_expandCore hw hlen hsuf hend hstem, by decide⟩

/-- Witness for C5: the word "trading" of the query "trading" ends with
"ing"; its stem "trad" (length 4 ≥ 3) is in the expansion set. -/
theorem c5_stemming_rule_witness :
    ("trad" : String) ∈ expand_query "trading" :=
  c5_stemming_rule.1 "trading" "trading" "ing" "" (by decide) (by decide)
    (by decide) (by decide) (by decide)

/-- C6: expand("") is exactly the singleton list containing the empty string,
and the same holds for every query that normalises to the empty string
(whitespace-only input): no expansion rule fires. -/
theorem c6_empty_query :
    expand_query "" = [""] ∧ ∀ q, normQuery q = "" → expand_query q = [""] := by
  refine ⟨by decide, fun q h => ?_⟩
  show expandCore (normQuery q) = [""]
  rw [h]
  decide

/-- Witness for C6: a whitespace-only query normalises to the empty string
and expands to the singleton. -/
theorem c6_empty_query_witness : expand_query "  " = [""] :=
  c6_empty_query.2 "  " (by decide)

/-- C7: the matcher is idempotent — applying the matching step twice yields
the same ordered result as applying it once, for every variant set and record
list. -/
theorem c7_matcher_idempotent (V : List String) (rs : List Event) :
    search_matches V (search_matches V rs) = search_matches V rs := by
  rw [search_matches_eq_filter, search_matches_eq_filter, List.filter_filter]
  exact List.filter_congr fun e _ => Bool.and_self _

/-- C8: both core functions are total with no error conditions: every input
string yields a valid non-empty variant set (containing the normalised query),
and every variant set applied to the empty record list yields the empty
result. -/
theorem c8_totality :
    (∀ q, expand_query q ≠ [] ∧ normQuery q ∈ expand_query q) ∧
      ∀ V, search_matches V [] = [] :=
  ⟨fun q => ⟨List.ne_nil_of_mem (self_mem_expandCore (normQuery q)),
    self_mem_expandCore (normQuery q)⟩, fun _ => rfl⟩

/-- C9: for every query that is empty or whitespace-only (its normalised form
is empty), the expansion set contains the empty string, and the composed
pipeline returns every record in order. -/
theorem c9_empty_query_matches_all (q : String) (rs : List Event)
    (h : normQuery q = "") :
    ("" : String) ∈ expand_query q ∧ search_matches (expand_query q) rs = rs := by
  have hmem : ("" : String) ∈ expand_query q := by
    show ("" : String) ∈ expandCore (normQuery q)
    rw [h]
    exact self_mem_expandCore ""
  exact ⟨hmem, search_matches_of_empty_mem hmem rs⟩

/-- Witness for C9: the whitespace query " " returns the whole sample list. -/
theorem c9_empty_query_matches_all_witness :
    search_matches (expand_query " ") sampleEvents = sampleEvents :=
  (c9_empty_query_matches_all " " sampleEvents (by decide)).2

/-- C10: expansion is invariant under input normalisation: expand(q) and
expand(q.lower().strip()) have exactly the same elements, for every q. -/
theorem c10_expand_norm_invariant (q : String) (x : String) :
    x ∈ expand_query q ↔ x ∈ expand_query (pyStrip (pyLower q)) := by
  have h : expand_query (pyStrip (pyLower q)) = expand_query q := by
    show expandCore (normQuery (normQuery q)) = expandCore (normQuery q)
    rw [normQuery_idem]
  rw [h]

end Polymarket
